import Mathlib

/-
Verification of the UTXO-ledger core (bitcoin package): Merkle tree,
transaction/UTXO model, block construction and proof-of-work search,
ledger mempool operations and difficulty adjustment.

Modelling conventions:
* Monetary amounts (Python floats) are modelled as rationals.
* Python dicts are modelled as association lists with insert-or-replace
  semantics (dictInsert, dictRemove, dictLookup below).
* The SHA-256 based double hash used inside the Merkle tree is modelled as a
  free term algebra (HashStr): dsha and cat are free constructors, so the
  modelled hash is injective and collision-free, which is the ideal-hash
  reading the specification's Merkle-proof properties rely on.
* Hashing/serialization/ECDSA primitives outside the Merkle tree
  (HashUtils.calculate_sha256, json.dumps of the signing data,
  ecdsa verify, Base58Check address derivation, and
  HashUtils.calculate_block_hash) are external collaborators in the spec;
  they are gathered in a Crypto parameter record and the theorems are
  proved for every instantiation.
* Python exceptions are modelled by Option results (none = the call raises).
* Wall-clock timestamps are passed explicitly as arguments.
* The purely diagnostic transaction-history cache and the diagnostic
  difficulty_history list are not part of the model.
-/

attribute [local semireducible] Rat.add Rat.sub Rat.mul Rat.inv

/-! Association lists with Python-dict semantics. -/

def dictLookup {β : Type} (l : List (String × β)) (k : String) : Option β :=
  (l.find? (fun p => p.1 = k)).map (fun p => p.2)

def dictInsert {β : Type} (k : String) (v : β) : List (String × β) → List (String × β)
  | [] => [(k, v)]
  | (k2, v2) :: rest =>
    if k2 = k then (k, v) :: rest else (k2, v2) :: dictInsert k v rest

def dictRemove {β : Type} (k : String) (l : List (String × β)) : List (String × β) :=
  l.filter (fun p => p.1 ≠ k)

/-! Decimal representation of naturals, modelling Python str(int) for the
UTXO-id strings of the form "txid:index".  Defined with explicit fuel so
that it evaluates by kernel reduction. -/

def natDigitsRev (fuel n : Nat) : List Char :=
  match fuel with
  | 0 => []
  | fuel + 1 =>
    let d := Char.ofNat (48 + n % 10)
    if n < 10 then [d] else d :: natDigitsRev fuel (n / 10)

def natRepr (n : Nat) : String :=
  String.mk (natDigitsRev (n + 1) n).reverse

/-- Key of the UTXO produced as output number idx of transaction tid;
models the Python f-string "txid:output_index". -/
def utxoKey (tid : String) (idx : Nat) : String :=
  tid ++ ":" ++ natRepr idx

/-! Free term algebra of hash strings used by the Merkle tree.
raw s is a literal string (a transaction id or the all-zero sentinel),
cat is concatenation of two hex strings, dsha is MerkleTree._double_sha256. -/

inductive HashStr : Type where
  | raw : String → HashStr
  | cat : HashStr → HashStr → HashStr
  | dsha : HashStr → HashStr
deriving DecidableEq, Repr

/-- The 64-character all-zero sentinel string used for empty Merkle roots. -/
def zeros64 : HashStr :=
  HashStr.raw (String.mk (List.replicate 64 '0'))

/-! Merkle tree (merkle_tree.py).  A MerkleNode is either a leaf carrying the
original transaction id (data) or an internal node with two children; in the
source every internal node has both children set, so the embedding makes
them mandatory. -/

inductive MerkleNode : Type where
  | leaf : HashStr → String → MerkleNode
  | node : HashStr → MerkleNode → MerkleNode → MerkleNode
deriving DecidableEq, Repr

def MerkleNode.hashValue : MerkleNode → HashStr
  | .leaf h _ => h
  | .node h _ _ => h

def MerkleNode.leafData : MerkleNode → Option String
  | .leaf _ d => some d
  | .node _ _ _ => none

/-- One level-combination step of MerkleTree.build_tree: pair adjacent
nodes left-to-right; an odd trailing node is paired with itself. -/
def combineLevel : List MerkleNode → List MerkleNode
  | [] => []
  | [a] => [MerkleNode.node (HashStr.dsha (HashStr.cat a.hashValue a.hashValue)) a a]
  | a :: b :: rest =>
    MerkleNode.node (HashStr.dsha (HashStr.cat a.hashValue b.hashValue)) a b ::
      combineLevel rest

/-- The while-loop of build_tree: repeatedly combine levels until one node
remains.  fuel bounds the number of iterations; initial fuel = level length
is always sufficient since each step at least halves the length. -/
def buildFromLevel : Nat → List MerkleNode → Option MerkleNode
  | _, [] => none
  | _, [a] => some a
  | 0, _ :: _ :: _ => none
  | fuel + 1, a :: b :: rest => buildFromLevel fuel (combineLevel (a :: b :: rest))

structure MerkleProof : Type where
  target_hash : HashStr
  merkle_root : HashStr
  proof_hashes : List HashStr
  proof_directions : List Bool
deriving DecidableEq, Repr

structure MerkleTree : Type where
  transactions : List String
  leaves : List MerkleNode
  root : Option MerkleNode
deriving DecidableEq, Repr

/-- Leaf construction in build_tree: the stored hash is the double SHA-256 of
the transaction id, and data keeps the original id. -/
def mkLeaf (tx : String) : MerkleNode :=
  MerkleNode.leaf (HashStr.dsha (HashStr.raw tx)) tx

/-- MerkleTree.__init__ followed by build_tree. -/
def MerkleTree.ofTxs (txs : List String) : MerkleTree :=
  let leaves := txs.map mkLeaf
  { transactions := txs, leaves := leaves, root := buildFromLevel leaves.length leaves }

def MerkleTree.get_merkle_root (t : MerkleTree) : Option HashStr :=
  t.root.map MerkleNode.hashValue

/-- MerkleTree._build_proof_path: depth-first search for the target node
(compared structurally, as Python dataclass equality does); while unwinding,
the sibling hash and a direction flag (true = sibling on the right) are
appended, so the lists run from the leaf level upwards. -/
def build_proof_path (n target : MerkleNode) : Option (List HashStr × List Bool) :=
  if n = target then some ([], [])
  else
    match n with
    | .leaf _ _ => none
    | .node _ l r =>
      match build_proof_path l target with
      | some (hs, ds) => some (hs ++ [r.hashValue], ds ++ [true])
      | none =>
        match build_proof_path r target with
        | some (hs, ds) => some (hs ++ [l.hashValue], ds ++ [false])
        | none => none

/-- MerkleTree.get_merkle_proof. -/
def MerkleTree.get_merkle_proof (t : MerkleTree) (tx : String) : Option MerkleProof :=
  if tx ∈ t.transactions then
    match t.leaves.find? (fun lf => lf.leafData = some tx) with
    | none => none
    | some target =>
      match t.root with
      | none => none
      | some r =>
        let pr := (build_proof_path r target).getD ([], [])
        some { target_hash := HashStr.raw tx, merkle_root := r.hashValue,
               proof_hashes := pr.1, proof_directions := pr.2 }
  else none

/-- The hash-recomputation loop of MerkleTree.verify_merkle_proof; mirrors
the zip of proof_hashes with proof_directions (stopping at the shorter). -/
def proofFold (cur : HashStr) : List HashStr → List Bool → HashStr
  | [], _ => cur
  | _, [] => cur
  | h :: hs, d :: ds =>
    proofFold (HashStr.dsha (if d then HashStr.cat cur h else HashStr.cat h cur)) hs ds

/-- MerkleTree.verify_merkle_proof (static / pure). -/
def MerkleTree.verify_merkle_proof (p : MerkleProof) : Bool :=
  proofFold (HashStr.dsha p.target_hash) p.proof_hashes p.proof_directions = p.merkle_root

/-- Hash-consistency of a tree: every internal node's hash is the double
SHA-256 of the concatenation of its children's hashes.  This holds for every
tree produced by build_tree. -/
def consistentTree : MerkleNode → Prop
  | .leaf _ _ => True
  | .node h l r =>
    h = HashStr.dsha (HashStr.cat l.hashValue r.hashValue) ∧ consistentTree l ∧ consistentTree r

/-- Occurrence of a node value inside a tree (the search relation of the
depth-first proof-path construction). -/
def occursIn (target : MerkleNode) : MerkleNode → Prop
  | .leaf h d => MerkleNode.leaf h d = target
  | .node h l r => MerkleNode.node h l r = target ∨ occursIn target l ∨ occursIn target r

/-! Transaction and UTXO model (transaction.py). -/

structure UTXO : Type where
  transaction_id : String
  output_index : Nat
  amount : Rat
  recipient_address : String
  is_spent : Bool
deriving DecidableEq, Repr

def UTXO.get_utxo_id (u : UTXO) : String :=
  utxoKey u.transaction_id u.output_index

structure TransactionInput : Type where
  transaction_id : String
  output_index : Nat
  signature : String
  public_key : String
deriving DecidableEq, Repr

def TransactionInput.get_utxo_id (i : TransactionInput) : String :=
  utxoKey i.transaction_id i.output_index

structure TransactionOutput : Type where
  amount : Rat
  recipient_address : String
deriving DecidableEq, Repr

/-- A transaction value.  transaction_id is stored as a field; the smart
constructor Transaction.make below computes it the way __init__ does. -/
structure Transaction : Type where
  inputs : List TransactionInput
  outputs : List TransactionOutput
  timestamp : String
  block_height : Option Nat
  transaction_id : String
deriving DecidableEq, Repr

/-- Transaction.is_coinbase: no inputs, or every input has an empty
referenced transaction id. -/
def Transaction.is_coinbase (t : Transaction) : Bool :=
  t.inputs.isEmpty || t.inputs.all (fun i => i.transaction_id = "")

/-- The canonical signing data of get_transaction_data_for_signature, as a
structured value: input references, outputs, timestamp, and the block height
exactly when the transaction is coinbase and carries one. -/
structure TxSigData : Type where
  input_refs : List (String × Nat)
  outputs : List TransactionOutput
  timestamp : String
  block_height : Option Nat
deriving DecidableEq, Repr

def Transaction.get_transaction_data_for_signature (t : Transaction) : TxSigData :=
  { input_refs := t.inputs.map (fun i => (i.transaction_id, i.output_index))
    outputs := t.outputs
    timestamp := t.timestamp
    block_height :=
      if t.is_coinbase ∧ t.block_height ≠ none then t.block_height else none }

/-- External collaborator primitives (spec section 1 delegates them): string
SHA-256, canonical JSON serialization of the signing data, ECDSA signature
verification, Base58Check address derivation, and the block-header hash
HashUtils.calculate_block_hash (index, merkle_root, previous_hash,
timestamp, nonce). -/
structure Crypto : Type where
  sha256 : String → String
  serializeSig : TxSigData → String
  verifySig : String → String → String → Bool
  deriveAddress : String → String
  blockHash : Nat → HashStr → String → String → Nat → String

/-- Transaction._calculate_hash: SHA-256 of the canonical signing data. -/
def Transaction.calc_hash (C : Crypto) (t : Transaction) : String :=
  C.sha256 (C.serializeSig t.get_transaction_data_for_signature)

/-- Transaction.__init__ : the id is computed from inputs, outputs, the
creation timestamp and (for coinbase) the block height. -/
def Transaction.make (C : Crypto) (inputs : List TransactionInput)
    (outputs : List TransactionOutput) (block_height : Option Nat)
    (ts : String) : Transaction :=
  let t0 : Transaction :=
    { inputs := inputs, outputs := outputs, timestamp := ts,
      block_height := block_height, transaction_id := "" }
  { t0 with transaction_id := t0.calc_hash C }

/-- Transaction.create_coinbase_transaction. -/
def Transaction.create_coinbase_transaction (C : Crypto) (miner_address : String)
    (reward : Rat) (block_height : Option Nat) (ts : String) : Transaction :=
  Transaction.make C [] [{ amount := reward, recipient_address := miner_address }]
    block_height ts

/-- UTXOSet: a dict from UTXO id to UTXO. -/
structure UTXOSet : Type where
  utxos : List (String × UTXO)
deriving DecidableEq, Repr

def UTXOSet.mem (s : UTXOSet) (utxo_id : String) : Bool :=
  (dictLookup s.utxos utxo_id).isSome

def UTXOSet.get_utxo (s : UTXOSet) (utxo_id : String) : Option UTXO :=
  dictLookup s.utxos utxo_id

def UTXOSet.add_utxo (s : UTXOSet) (u : UTXO) : UTXOSet :=
  { utxos := dictInsert u.get_utxo_id u s.utxos }

def UTXOSet.remove_utxo (s : UTXOSet) (utxo_id : String) : UTXOSet :=
  { utxos := dictRemove utxo_id s.utxos }

def UTXOSet.get_utxos_by_address (s : UTXOSet) (address : String) : List UTXO :=
  (s.utxos.map (fun p => p.2)).filter
    (fun u => u.recipient_address = address ∧ u.is_spent = false)

def UTXOSet.get_balance (s : UTXOSet) (address : String) : Rat :=
  ((s.get_utxos_by_address address).map (fun u => u.amount)).sum

/-- The output-insertion loop of UTXOSet.update_from_transaction, with the
running enumeration index made explicit. -/
def addOutputsFrom (tid : String) : Nat → List TransactionOutput → UTXOSet → UTXOSet
  | _, [], s => s
  | idx, o :: rest, s =>
    addOutputsFrom tid (idx + 1) rest
      (s.add_utxo { transaction_id := tid, output_index := idx,
                    amount := o.amount, recipient_address := o.recipient_address,
                    is_spent := false })

/-- UTXOSet.update_from_transaction: delete every UTXO referenced by an input
(marking it spent immediately before deletion has no observable effect), then
add one unspent UTXO per output, keyed by (transaction id, output index). -/
def UTXOSet.update_from_transaction (s : UTXOSet) (t : Transaction) : UTXOSet :=
  let afterRemove :=
    t.inputs.foldl (fun acc i => acc.remove_utxo i.get_utxo_id) s
  addOutputsFrom t.transaction_id 0 t.outputs afterRemove

/-- Transaction.get_total_output_value. -/
def Transaction.get_total_output_value (t : Transaction) : Rat :=
  (t.outputs.map (fun o => o.amount)).sum

/-- Transaction.get_total_input_value: sums the amounts of the referenced
UTXOs that are present in the set, skipping missing references. -/
def Transaction.get_total_input_value (t : Transaction) (s : UTXOSet) : Rat :=
  if t.is_coinbase then 0
  else
    t.inputs.foldl
      (fun acc i =>
        match s.get_utxo i.get_utxo_id with
        | some u => acc + u.amount
        | none => acc) 0

/-- Transaction.calculate_fee: zero for coinbase, otherwise input total minus
output total floored at zero. -/
def Transaction.calculate_fee (t : Transaction) (s : UTXOSet) : Rat :=
  if t.is_coinbase then 0
  else max 0 (t.get_total_input_value s - t.get_total_output_value)

def Transaction.get_input_signature_data (C : Crypto) (t : Transaction)
    (input_index : Nat) : String :=
  C.serializeSig t.get_transaction_data_for_signature ++ ":input_" ++ natRepr input_index

/-- Transaction._verify_input_address: the address derived from the input's
public key must equal the recipient address of the UTXO it spends. -/
def Transaction.verify_input_address (C : Crypto) (i : TransactionInput)
    (s : UTXOSet) : Bool :=
  match s.get_utxo i.get_utxo_id with
  | none => false
  | some u => C.deriveAddress i.public_key = u.recipient_address

/-- Transaction.verify_signature: trivially true for coinbase; otherwise each
input needs a nonempty signature and public key, an address match when a
UTXO set is supplied, and a valid signature over the input-specific data. -/
def Transaction.verify_signature (C : Crypto) (t : Transaction)
    (s : Option UTXOSet) : Bool :=
  if t.is_coinbase then true
  else
    (List.range t.inputs.length).all (fun k =>
      match t.inputs.get? k with
      | none => true
      | some i =>
        i.signature ≠ "" && i.public_key ≠ "" &&
        (match s with
         | some us => Transaction.verify_input_address C i us
         | none => true) &&
        C.verifySig (t.get_input_signature_data C k) i.signature i.public_key)

/-- Transaction._validate_utxo_constraints: every referenced UTXO exists and
is unspent, and input total covers output total. -/
def Transaction.validate_utxo_constraints (t : Transaction) (s : UTXOSet) : Bool :=
  t.inputs.all (fun i =>
    match s.get_utxo i.get_utxo_id with
    | none => false
    | some u => !u.is_spent) &&
  ((t.inputs.map (fun i =>
      match s.get_utxo i.get_utxo_id with
      | some u => u.amount
      | none => 0)).sum ≥ t.get_total_output_value)

/-- Transaction.is_valid. -/
def Transaction.is_valid (C : Crypto) (t : Transaction) (s : Option UTXOSet) : Bool :=
  if t.outputs.isEmpty then false
  else if t.outputs.any (fun o => o.amount ≤ 0) then false
  else if t.is_coinbase then decide (0 < t.outputs.length)
  else if t.inputs.isEmpty then false
  else if !t.verify_signature C s then false
  else
    match s with
    | some us => t.validate_utxo_constraints us
    | none => true

/-! Block and proof of work (blockchain.py). -/

/-- The persisted transaction record stored inside blocks (the Python dict
produced by Transaction.to_dict, or a hand-made dict).  transaction_id is
optional: none models a dict that lacks the key. -/
structure TxRecord : Type where
  transaction_id : Option String
  inputs : List TransactionInput
  outputs : List TransactionOutput
  timestamp : String
  block_height : Option Nat
deriving DecidableEq, Repr

/-- Transaction.to_dict (the record always carries the transaction id). -/
def Transaction.to_dict (t : Transaction) : TxRecord :=
  { transaction_id := some t.transaction_id, inputs := t.inputs,
    outputs := t.outputs, timestamp := t.timestamp, block_height := t.block_height }

/-- The id-collection loop of Block._calculate_merkle_root.  A record with a
transaction_id contributes it; for a record without one the source evaluates
hashlib.sha256, but the blockchain module never imports hashlib, so that
branch raises NameError - modelled as none. -/
def collect_tx_ids : List TxRecord → Option (List String)
  | [] => some []
  | r :: rs =>
    match r.transaction_id with
    | some tid => (collect_tx_ids rs).map (fun ids => tid :: ids)
    | none => none

/-- Block._calculate_merkle_root: the all-zero sentinel for an empty list,
otherwise the root of the Merkle tree over the transaction ids (and the tree
itself, stored on the block); none models the NameError raised when a record
lacks its transaction_id. -/
def blockMerkleRoot (txs : List TxRecord) : Option (Option MerkleTree × HashStr) :=
  if txs.isEmpty then some (none, zeros64)
  else
    match collect_tx_ids txs with
    | none => none
    | some ids =>
      let tree := MerkleTree.ofTxs ids
      some (some tree, tree.get_merkle_root.getD zeros64)

structure Block : Type where
  index : Nat
  transactions : List TxRecord
  previous_hash : String
  timestamp : String
  nonce : Nat
  merkle_tree : Option MerkleTree
  merkle_root : HashStr
  hash : String
deriving DecidableEq, Repr

/-- Block.calculate_hash = HashUtils.calculate_block_hash over the five
header fields. -/
def Block.calculate_hash (C : Crypto) (b : Block) : String :=
  C.blockHash b.index b.merkle_root b.previous_hash b.timestamp b.nonce

/-- Block.__init__: compute the Merkle root from the transaction list, then
the block hash from index, merkle_root, previous_hash, timestamp and nonce.
none models the NameError described at blockMerkleRoot. -/
def Block.make (C : Crypto) (index : Nat) (transactions : List TxRecord)
    (previous_hash ts : String) (nonce : Nat) : Option Block :=
  match blockMerkleRoot transactions with
  | none => none
  | some (tree, mr) =>
    let b0 : Block :=
      { index := index, transactions := transactions, previous_hash := previous_hash,
        timestamp := ts, nonce := nonce, merkle_tree := tree, merkle_root := mr,
        hash := "" }
    some { b0 with hash := b0.calculate_hash C }

/-- Block.mine_block: increment nonce and recompute the hash until the first
difficulty characters of the hash are all '0'.  The source loop is unbounded;
fuel bounds the number of iterations, none models non-termination within the
given fuel. -/
def Block.mine_block (C : Crypto) (difficulty : Nat) : Nat → Block → Option Block
  | fuel, b =>
    if b.hash.take difficulty = String.mk (List.replicate difficulty '0') then some b
    else
      match fuel with
      | 0 => none
      | fuel + 1 =>
        let b2 : Block := { b with nonce := b.nonce + 1 }
        Block.mine_block C difficulty fuel { b2 with hash := b2.calculate_hash C }

/-! Ledger (class Blockchain). -/

structure Blockchain : Type where
  difficulty : Nat
  pending_transactions : List Transaction
  mining_reward : Rat
  utxo_set : UTXOSet
  transaction_index : List (String × (Nat × Nat))
  chain : List Block
deriving DecidableEq, Repr

/-- The UTXO ids referenced by inputs of mempool transactions (the
pending_used_utxos set of _validate_transaction_utxos). -/
def Blockchain.pending_used_utxo_ids (bc : Blockchain) : List String :=
  (bc.pending_transactions.map
    (fun t => t.inputs.map TransactionInput.get_utxo_id)).flatten

/-- Blockchain._validate_transaction_utxos: every input's UTXO exists, is not
reserved by a mempool transaction, is unspent; and input total covers output
total. -/
def Blockchain.validate_transaction_utxos (bc : Blockchain) (t : Transaction) : Bool :=
  t.inputs.all (fun i =>
    match bc.utxo_set.get_utxo i.get_utxo_id with
    | none => false
    | some u => decide (i.get_utxo_id ∉ bc.pending_used_utxo_ids) && !u.is_spent) &&
  ((t.inputs.map (fun i =>
      match bc.utxo_set.get_utxo i.get_utxo_id with
      | some u => u.amount
      | none => 0)).sum ≥ t.get_total_output_value)

/-- Blockchain.add_transaction: returns the boolean result together with the
ledger state after the call (unchanged when the transaction is rejected). -/
def Blockchain.add_transaction (C : Crypto) (bc : Blockchain) (t : Transaction) :
    Bool × Blockchain :=
  if t.is_valid C (some bc.utxo_set) = false then (false, bc)
  else if t.inputs ≠ [] ∧ bc.validate_transaction_utxos t = false then (false, bc)
  else (true, { bc with pending_transactions := bc.pending_transactions ++ [t] })

/-- The enumerate loop of Blockchain._update_transaction_index, with the
position made explicit; records with a missing or empty id are skipped. -/
def updateIndexFrom (block_index : Nat) :
    Nat → List TxRecord → List (String × (Nat × Nat)) → List (String × (Nat × Nat))
  | _, [], idx => idx
  | p, r :: rs, idx =>
    let idx2 :=
      match r.transaction_id with
      | some tid => if tid = "" then idx else dictInsert tid (block_index, p) idx
      | none => idx
    updateIndexFrom block_index (p + 1) rs idx2

/-- Blockchain._update_transaction_index for one block. -/
def update_transaction_index (idx : List (String × (Nat × Nat))) (b : Block) :
    List (String × (Nat × Nat)) :=
  updateIndexFrom b.index 0 b.transactions idx

def Blockchain.get_latest_block (bc : Blockchain) : Option Block :=
  bc.chain.getLast?

/-- The total-fee sum at the start of mine_pending_transactions, computed
against the pre-mining UTXO set. -/
def Blockchain.total_pending_fees (bc : Blockchain) : Rat :=
  (bc.pending_transactions.map (fun t => t.calculate_fee bc.utxo_set)).sum

/-- The coinbase synthesized at the start of mine_pending_transactions:
reward plus the total mempool fees, tagged with the next block height. -/
def Blockchain.reward_transaction (C : Crypto) (bc : Blockchain)
    (mining_reward_address ts_tx : String) : Transaction :=
  Transaction.create_coinbase_transaction C mining_reward_address
    (bc.mining_reward + bc.total_pending_fees) (some bc.chain.length) ts_tx

/-- Blockchain.mine_pending_transactions: synthesize the coinbase for
reward + fees tagged with the next height, build and mine the block, append
it, replay every transaction (coinbase last) into the UTXO set, extend the
transaction index, and clear the mempool.  ts_tx is the coinbase creation
timestamp and ts_block the block timestamp (the source reads the clock);
none models an empty chain (get_latest_block raises) or mining that did not
finish within fuel. -/
def Blockchain.mine_pending_transactions (C : Crypto) (fuel : Nat) (bc : Blockchain)
    (mining_reward_address : String) (ts_tx ts_block : String) :
    Option (Block × Blockchain) :=
  match bc.get_latest_block with
  | none => none
  | some latest =>
    match Block.make C bc.chain.length
        (bc.pending_transactions.map Transaction.to_dict ++
          [(bc.reward_transaction C mining_reward_address ts_tx).to_dict])
        latest.hash ts_block 0 with
    | none => none
    | some blk =>
      match Block.mine_block C bc.difficulty fuel blk with
      | none => none
      | some mined =>
        some (mined,
          { bc with
            chain := bc.chain ++ [mined]
            utxo_set :=
              (bc.pending_transactions ++
                [bc.reward_transaction C mining_reward_address ts_tx]).foldl
                UTXOSet.update_from_transaction bc.utxo_set
            transaction_index := update_transaction_index bc.transaction_index mined
            pending_transactions := [] })

def Blockchain.get_balance (bc : Blockchain) (address : String) : Rat :=
  bc.utxo_set.get_balance address

/-! Difficulty adjustment (difficulty_adjustment.py). -/

structure BlockHeader : Type where
  height : Nat
  timestamp : Rat
  difficulty : Rat
  target : String
  hash_value : String
  previous_hash : String
  nonce : Nat
deriving DecidableEq, Repr

structure DifficultyAdjustment : Type where
  initial_difficulty : Rat
  block_headers : List BlockHeader
deriving DecidableEq, Repr

def ADJUSTMENT_INTERVAL : Nat := 2016

def TARGET_TIMESPAN : Rat := 1209600

def MAX_ADJUSTMENT_FACTOR : Rat := 4

def MIN_ADJUSTMENT_FACTOR : Rat := 1 / 4

/-- DifficultyAdjustment.should_adjust_difficulty. -/
def should_adjust_difficulty (height : Nat) : Bool :=
  decide (0 < height ∧ height % ADJUSTMENT_INTERVAL = 0)

/-- DifficultyAdjustment.find_block_by_height: first header of the given
height. -/
def DifficultyAdjustment.find_block_by_height (da : DifficultyAdjustment)
    (height : Nat) : Option BlockHeader :=
  da.block_headers.find? (fun h => h.height = height)

/-- The fallback value used off adjustment boundaries and when a boundary
header is missing: the last recorded difficulty, or the initial difficulty
when nothing is recorded. -/
def DifficultyAdjustment.current_recorded_difficulty (da : DifficultyAdjustment) : Rat :=
  match da.block_headers.getLast? with
  | some h => h.difficulty
  | none => da.initial_difficulty

/-- The clamp of the adjustment quotient to [MIN, MAX] factors. -/
def clampFactor (q : Rat) : Rat :=
  max MIN_ADJUSTMENT_FACTOR (min MAX_ADJUSTMENT_FACTOR q)

/-- DifficultyAdjustment.calculate_next_difficulty.  none models the
ZeroDivisionError raised when the two boundary timestamps coincide; the
appended diagnostic history entry is not modelled. -/
def DifficultyAdjustment.calculate_next_difficulty (da : DifficultyAdjustment)
    (current_height : Nat) : Option Rat :=
  if ¬ should_adjust_difficulty current_height then
    some da.current_recorded_difficulty
  else
    match da.find_block_by_height (current_height - ADJUSTMENT_INTERVAL),
        da.find_block_by_height (current_height - 1) with
    | some start_block, some end_block =>
      let actual_timespan := end_block.timestamp - start_block.timestamp
      if actual_timespan = 0 then none
      else some (end_block.difficulty * clampFactor (TARGET_TIMESPAN / actual_timespan))
    | _, _ => some da.current_recorded_difficulty

/-! Decoder used to prove that the decimal representation is injective. -/

def decodeDigitsRev : List Char → Nat
  | [] => 0
  | c :: cs => (c.toNat - 48) + 10 * decodeDigitsRev cs

/-! Concrete fixtures used by the witness theorems. -/

/-- A concrete instantiation of the collaborator primitives: injective-enough
string hash, constant serialization, always-accepting signature check, a
constant derived address, and a block hash that satisfies any zero-prefix
target at once. -/
def testCrypto : Crypto :=
  { sha256 := fun s => "H" ++ s
    serializeSig := fun _ => "sig"
    verifySig := fun _ _ _ => true
    deriveAddress := fun _ => "alice"
    blockHash := fun _ _ _ _ _ => String.mk (List.replicate 64 '0') }

/-- A collaborator instantiation whose block hash misses the target at
nonce 0 and hits it from nonce 1 on, so mining takes exactly one step. -/
def stepCrypto : Crypto :=
  { testCrypto with blockHash := fun _ _ _ _ n => if n = 0 then "ffff" else "0fff" }

def utxoG : UTXO :=
  { transaction_id := "g", output_index := 0, amount := 50,
    recipient_address := "alice", is_spent := false }

def bcA : Blockchain :=
  { difficulty := 2, pending_transactions := [], mining_reward := 50,
    utxo_set := { utxos := [("g:0", utxoG)] }, transaction_index := [], chain := [] }

def txSpend1 : Transaction :=
  { inputs := [{ transaction_id := "g", output_index := 0, signature := "s",
                 public_key := "pk" }],
    outputs := [{ amount := 20, recipient_address := "bob" }],
    timestamp := "1", block_height := none, transaction_id := "id1" }

def txSpend2 : Transaction :=
  { inputs := [{ transaction_id := "g", output_index := 0, signature := "s2",
                 public_key := "pk2" }],
    outputs := [{ amount := 10, recipient_address := "carol" }],
    timestamp := "2", block_height := none, transaction_id := "id2" }

/-- A transaction with no outputs, rejected by is_valid. -/
def txBad : Transaction :=
  { inputs := [], outputs := [], timestamp := "3", block_height := none,
    transaction_id := "idbad" }

def blockG : Block :=
  { index := 0, transactions := [], previous_hash := "0", timestamp := "t0",
    nonce := 0, merkle_tree := none, merkle_root := zeros64, hash := "gh" }

def bc0 : Blockchain :=
  { difficulty := 0, pending_transactions := [], mining_reward := 50,
    utxo_set := { utxos := [] }, transaction_index := [], chain := [blockG] }

/-- A freshly constructed block for the mining witness; its stored hash is
the one computed at construction, as Block.__init__ does. -/
def blockM : Block :=
  { index := 1, transactions := [], previous_hash := "p", timestamp := "t",
    nonce := 0, merkle_tree := none, merkle_root := zeros64,
    hash := stepCrypto.blockHash 1 zeros64 "p" "t" 0 }

def headerAt (h : Nat) (ts diff : Rat) : BlockHeader :=
  { height := h, timestamp := ts, difficulty := diff, target := "t",
    hash_value := "h", previous_hash := "p", nonce := 0 }

/-- Difficulty fixture: boundary headers for the cycle ending at height
2016, spanning exactly the target timespan. -/
def daFix : DifficultyAdjustment :=
  { initial_difficulty := 1,
    block_headers := [headerAt 0 0 2, headerAt 2015 1209600 2] }

/-- A coinbase transaction fixture. -/
def txCb : Transaction :=
  { inputs := [], outputs := [{ amount := 5, recipient_address := "m" }],
    timestamp := "4", block_height := some 3, transaction_id := "idcb" }

/-- A self-referencing transaction: its single input cites the very UTXO id
that its own first output recreates. -/
def txSelf : Transaction :=
  { inputs := [{ transaction_id := "x", output_index := 0, signature := "",
                 public_key := "" }],
    outputs := [{ amount := 5, recipient_address := "a" }],
    timestamp := "5", block_height := none, transaction_id := "x" }

def utxoK : UTXO :=
  { transaction_id := "k", output_index := 0, amount := 9,
    recipient_address := "carl", is_spent := false }

def setK : UTXOSet := { utxos := [("k:0", utxoK)] }

/-- An ordinary spend of utxoK producing one output, for the C10 witness. -/
def txK : Transaction :=
  { inputs := [{ transaction_id := "k", output_index := 0, signature := "",
                 public_key := "" }],
    outputs := [{ amount := 3, recipient_address := "bob" }],
    timestamp := "6", block_height := none, transaction_id := "y" }

/-- A transaction record that lacks the transaction_id key. -/
def recNoId : TxRecord :=
  { transaction_id := none, inputs := [], outputs := [], timestamp := "7",
    block_height := none }

/-! Lemmas about the dict model. -/

theorem dictLookup_insert_self {β : Type} (k : String) (v : β) (l : List (String × β)) :
    dictLookup (dictInsert k v l) k = some v := by
  induction l with
  | nil => simp [dictInsert, dictLookup, List.find?]
  | cons p rest ih =>
    obtain ⟨k2, v2⟩ := p
    by_cases h : k2 = k
    · simp [dictInsert, h, dictLookup, List.find?]
    · simpa [dictInsert, h, dictLookup, List.find?] using ih

theorem dictLookup_insert_ne {β : Type} (k k2 : String) (v : β) (l : List (String × β))
    (h : k2 ≠ k) : dictLookup (dictInsert k v l) k2 = dictLookup l k2 := by
  induction l with
  | nil => simp [dictInsert, dictLookup, List.find?, Ne.symm h]
  | cons p rest ih =>
    obtain ⟨k3, v3⟩ := p
    by_cases h3 : k3 = k
    · subst h3
      simp [dictInsert, dictLookup, List.find?, Ne.symm h]
    · by_cases h4 : k3 = k2
      · subst h4
        simp [dictInsert, h3, h, dictLookup, List.find?]
      · simpa [dictInsert, h3, dictLookup, List.find?, h4] using ih

theorem dictLookup_remove_self {β : Type} (k : String) (l : List (String × β)) :
    dictLookup (dictRemove k l) k = none := by
  induction l with
  | nil => simp [dictRemove, dictLookup]
  | cons p rest ih =>
    obtain ⟨k2, v2⟩ := p
    by_cases h : k2 = k
    · rw [dictRemove] at ih ⊢
      simpa [h] using ih
    · rw [dictRemove] at ih ⊢
      simp only [List.filter_cons, h, decide_not, dictLookup, List.find?] at ih ⊢
      simp [h]

theorem dictLookup_remove_ne {β : Type} (k k2 : String) (l : List (String × β))
    (h : k2 ≠ k) : dictLookup (dictRemove k l) k2 = dictLookup l k2 := by
  induction l with
  | nil => simp [dictRemove, dictLookup]
  | cons p rest ih =>
    obtain ⟨k3, v3⟩ := p
    by_cases h3 : k3 = k
    · subst h3
      simpa [dictRemove, dictLookup, List.find?, Ne.symm h, List.filter] using ih
    · by_cases h4 : k3 = k2
      · subst h4
        simp [dictRemove, dictLookup, List.find?, h3, h, List.filter]
      · simpa [dictRemove, dictLookup, List.find?, h3, h4, List.filter] using ih

/-! Injectivity of the decimal representation, hence of UTXO-id strings in
the output index. -/

theorem digit_char_toNat : ∀ m : Nat, m < 10 → (Char.ofNat (48 + m)).toNat = 48 + m := by
  decide

theorem decode_natDigitsRev : ∀ fuel n : Nat, n < fuel →
    decodeDigitsRev (natDigitsRev fuel n) = n := by
  intro fuel
  induction fuel with
  | zero => intro n h; omega
  | succ fuel ih =>
    intro n h
    by_cases hn : n < 10
    · simp [natDigitsRev, hn, decodeDigitsRev, digit_char_toNat (n % 10) (by omega)]
    · have hrec : decodeDigitsRev (natDigitsRev fuel (n / 10)) = n / 10 := by
        apply ih
        omega
      simp [natDigitsRev, hn, decodeDigitsRev, hrec,
        digit_char_toNat (n % 10) (by omega)]
      omega

theorem natRepr_injective (m n : Nat) (h : natRepr m = natRepr n) : m = n := by
  have hdata : (natDigitsRev (m + 1) m).reverse = (natDigitsRev (n + 1) n).reverse :=
    congrArg String.data h
  have hlist : natDigitsRev (m + 1) m = natDigitsRev (n + 1) n := by
    have := congrArg List.reverse hdata
    simpa using this
  have := congrArg decodeDigitsRev hlist
  rw [decode_natDigitsRev (m + 1) m (by omega),
    decode_natDigitsRev (n + 1) n (by omega)] at this
  exact this

theorem string_data_append (s t : String) : (s ++ t).data = s.data ++ t.data := by
  cases s
  cases t
  rfl

theorem string_eq_of_data_eq (s t : String) (h : s.data = t.data) : s = t := by
  cases s
  cases t
  exact congrArg String.mk h

theorem utxoKey_index_injective (tid : String) (i j : Nat)
    (h : utxoKey tid i = utxoKey tid j) : i = j := by
  apply natRepr_injective
  have hd := congrArg String.data h
  rw [utxoKey, utxoKey, string_data_append, string_data_append] at hd
  exact string_eq_of_data_eq _ _ (List.append_cancel_left hd)

/-! Merkle-tree lemmas. -/

theorem proofFold_append (hs : List HashStr) (ds : List Bool) (h : hs.length = ds.length)
    (cur hl : HashStr) (dl : Bool) :
    proofFold cur (hs ++ [hl]) (ds ++ [dl]) =
      HashStr.dsha (if dl then HashStr.cat (proofFold cur hs ds) hl
        else HashStr.cat hl (proofFold cur hs ds)) := by
  induction hs generalizing ds cur with
  | nil =>
    have hds : ds = [] := by
      cases ds
      · rfl
      · simp at h
    subst hds
    simp [proofFold]
  | cons h1 hs ih =>
    cases ds with
    | nil => simp at h
    | cons d1 ds =>
      simp only [List.cons_append, proofFold]
      apply ih
      simpa using h

theorem occursIn_self (n : MerkleNode) : occursIn n n := by
  cases n <;> simp [occursIn]

theorem build_proof_path_spec : ∀ (n target : MerkleNode) (hs : List HashStr)
    (ds : List Bool), consistentTree n → build_proof_path n target = some (hs, ds) →
    hs.length = ds.length ∧ proofFold target.hashValue hs ds = n.hashValue := by
  intro n
  induction n with
  | leaf h d =>
    intro target hs ds hc hp
    rw [build_proof_path] at hp
    by_cases he : MerkleNode.leaf h d = target
    · simp only [he, if_pos rfl] at hp
      obtain ⟨rfl, rfl⟩ : hs = [] ∧ ds = [] := by
        constructor <;> [exact (Prod.mk.injEq _ _ _ _ ▸ (Option.some.injEq _ _ ▸ hp)).1.symm;
          exact (Prod.mk.injEq _ _ _ _ ▸ (Option.some.injEq _ _ ▸ hp)).2.symm]
      rw [← he]
      exact ⟨rfl, rfl⟩
    · simp [he] at hp
  | node h l r ihl ihr =>
    intro target hs ds hc hp
    have hcl : consistentTree l := by
      rw [consistentTree] at hc
      exact hc.2.1
    have hcr : consistentTree r := by
      rw [consistentTree] at hc
      exact hc.2.2
    have hch : h = HashStr.dsha (HashStr.cat l.hashValue r.hashValue) := by
      rw [consistentTree] at hc
      exact hc.1
    rw [build_proof_path] at hp
    by_cases he : MerkleNode.node h l r = target
    · simp only [he, if_pos rfl] at hp
      obtain ⟨rfl, rfl⟩ : hs = [] ∧ ds = [] := by
        constructor <;> [exact (Prod.mk.injEq _ _ _ _ ▸ (Option.some.injEq _ _ ▸ hp)).1.symm;
          exact (Prod.mk.injEq _ _ _ _ ▸ (Option.some.injEq _ _ ▸ hp)).2.symm]
      rw [← he]
      exact ⟨rfl, rfl⟩
    · simp only [he, if_neg he] at hp
      cases hl2 : build_proof_path l target with
      | some pr =>
        obtain ⟨hs1, ds1⟩ := pr
        rw [hl2] at hp
        simp only [Option.some.injEq, Prod.mk.injEq] at hp
        obtain ⟨rfl, rfl⟩ := hp
        obtain ⟨hlen, hfold⟩ := ihl target hs1 ds1 hcl hl2
        constructor
        · simp [hlen]
        · rw [proofFold_append hs1 ds1 hlen, hfold, hch]
          simp [MerkleNode.hashValue]
      | none =>
        rw [hl2] at hp
        cases hr2 : build_proof_path r target with
        | some pr =>
          obtain ⟨hs1, ds1⟩ := pr
          rw [hr2] at hp
          simp only [Option.some.injEq, Prod.mk.injEq] at hp
          obtain ⟨rfl, rfl⟩ := hp
          obtain ⟨hlen, hfold⟩ := ihr target hs1 ds1 hcr hr2
          constructor
          · simp [hlen]
          · rw [proofFold_append hs1 ds1 hlen, hfold, hch]
            simp [MerkleNode.hashValue]
        | none =>
          rw [hr2] at hp
          simp at hp

theorem build_proof_path_isSome : ∀ n target : MerkleNode, occursIn target n →
    (build_proof_path n target).isSome = true := by
  intro n
  induction n with
  | leaf h d =>
    intro target ho
    rw [occursIn] at ho
    rw [build_proof_path, if_pos ho]
    rfl
  | node h l r ihl ihr =>
    intro target ho
    by_cases he : MerkleNode.node h l r = target
    · rw [build_proof_path, if_pos he]
      rfl
    · rw [build_proof_path, if_neg he]
      rw [occursIn] at ho
      rcases ho with ho | ho | ho
      · exact absurd ho he
      · have := ihl target ho
        cases hl2 : build_proof_path l target with
        | some pr => cases pr; rfl
        | none => rw [hl2] at this; simp at this
      · cases hl2 : build_proof_path l target with
        | some pr => cases pr; rfl
        | none =>
          have := ihr target ho
          cases hr2 : build_proof_path r target with
          | some pr => cases pr; rfl
          | none => rw [hr2] at this; simp at this

theorem combineLevel_length : ∀ l : List MerkleNode,
    (combineLevel l).length = (l.length + 1) / 2
  | [] => by simp [combineLevel]
  | [_] => by simp [combineLevel]
  | _ :: _ :: rest => by
    simp only [combineLevel, List.length_cons, combineLevel_length rest]
    omega

theorem combineLevel_consistent : ∀ l : List MerkleNode,
    (∀ n ∈ l, consistentTree n) → ∀ m ∈ combineLevel l, consistentTree m
  | [], _, m, hm => by simp [combineLevel] at hm
  | [a], h, m, hm => by
    simp only [combineLevel, List.mem_singleton] at hm
    subst hm
    rw [consistentTree]
    exact ⟨rfl, h a (by simp), h a (by simp)⟩
  | a :: b :: rest, h, m, hm => by
    simp only [combineLevel, List.mem_cons] at hm
    rcases hm with rfl | hm
    · rw [consistentTree]
      exact ⟨rfl, h a (by simp), h b (by simp)⟩
    · exact combineLevel_consistent rest (fun n hn => h n (by simp [hn])) m hm

theorem combineLevel_contains : ∀ (l : List MerkleNode) (n : MerkleNode), n ∈ l →
    ∃ m ∈ combineLevel l, ∀ t, occursIn t n → occursIn t m
  | [], n, hn => absurd hn (List.not_mem_nil n)
  | [a], n, hn => by
    simp only [List.mem_singleton] at hn
    subst hn
    refine ⟨MerkleNode.node (HashStr.dsha (HashStr.cat n.hashValue n.hashValue)) n n,
      by simp [combineLevel], fun t ht => ?_⟩
    rw [occursIn]
    exact Or.inr (Or.inl ht)
  | a :: b :: rest, n, hn => by
    simp only [List.mem_cons] at hn
    rcases hn with rfl | rfl | hn
    · refine ⟨MerkleNode.node (HashStr.dsha (HashStr.cat n.hashValue b.hashValue)) n b,
        by simp [combineLevel], fun t ht => ?_⟩
      rw [occursIn]
      exact Or.inr (Or.inl ht)
    · refine ⟨MerkleNode.node (HashStr.dsha (HashStr.cat a.hashValue n.hashValue)) a n,
        by simp [combineLevel], fun t ht => ?_⟩
      rw [occursIn]
      exact Or.inr (Or.inr ht)
    · obtain ⟨m, hm, htr⟩ := combineLevel_contains rest n hn
      exact ⟨m, by simp [combineLevel, hm], htr⟩

theorem buildFromLevel_consistent : ∀ (fuel : Nat) (l : List MerkleNode)
    (root : MerkleNode), (∀ n ∈ l, consistentTree n) →
    buildFromLevel fuel l = some root → consistentTree root
  | _, [], _, _, hb => by simp [buildFromLevel] at hb
  | _, [a], root, h, hb => by
    simp only [buildFromLevel, Option.some.injEq] at hb
    subst hb
    exact h a (by simp)
  | 0, _ :: _ :: _, _, _, hb => by simp [buildFromLevel] at hb
  | fuel + 1, a :: b :: rest, root, h, hb => by
    rw [buildFromLevel] at hb
    exact buildFromLevel_consistent fuel (combineLevel (a :: b :: rest)) root
      (combineLevel_consistent (a :: b :: rest) h) hb

theorem buildFromLevel_contains : ∀ (fuel : Nat) (l : List MerkleNode)
    (root n : MerkleNode), buildFromLevel fuel l = some root → n ∈ l →
    ∀ t, occursIn t n → occursIn t root
  | _, [], _, n, hb, hn => by simp [buildFromLevel] at hb
  | _, [a], root, n, hb, hn => by
    simp only [buildFromLevel, Option.some.injEq] at hb
    simp only [List.mem_singleton] at hn
    subst hb
    subst hn
    exact fun t ht => ht
  | 0, _ :: _ :: _, _, n, hb, hn => by simp [buildFromLevel] at hb
  | fuel + 1, a :: b :: rest, root, n, hb, hn => by
    rw [buildFromLevel] at hb
    obtain ⟨m, hm, htr⟩ := combineLevel_contains (a :: b :: rest) n hn
    intro t ht
    exact buildFromLevel_contains fuel (combineLevel (a :: b :: rest)) root m hb hm t
      (htr t ht)

theorem buildFromLevel_some : ∀ (fuel : Nat) (l : List MerkleNode), l ≠ [] →
    l.length ≤ fuel + 1 → ∃ r, buildFromLevel fuel l = some r
  | _, [], h, _ => absurd rfl h
  | _, [a], _, _ => ⟨a, by simp [buildFromLevel]⟩
  | 0, _ :: _ :: rest, _, hlen => by simp at hlen
  | fuel + 1, a :: b :: rest, _, hlen => by
    have hc := combineLevel_length (a :: b :: rest)
    have hne : combineLevel (a :: b :: rest) ≠ [] := by
      intro h0
      rw [h0] at hc
      simp at hc
      omega
    have hlen2 : (combineLevel (a :: b :: rest)).length ≤ fuel + 1 := by
      rw [hc]
      simp at hlen
      simp
      omega
    obtain ⟨r, hr⟩ := buildFromLevel_some fuel (combineLevel (a :: b :: rest)) hne hlen2
    refine ⟨r, ?_⟩
    rw [buildFromLevel]
    exact hr

theorem proofFold_inj : ∀ (ds : List Bool) (cur1 cur2 : HashStr)
    (hs1 hs2 : List HashStr), hs1.length = ds.length → hs2.length = ds.length →
    proofFold cur1 hs1 ds = proofFold cur2 hs2 ds → cur1 = cur2 ∧ hs1 = hs2 := by
  intro ds
  induction ds with
  | nil =>
    intro cur1 cur2 hs1 hs2 h1 h2 he
    have e1 : hs1 = [] := List.eq_nil_of_length_eq_zero h1
    have e2 : hs2 = [] := List.eq_nil_of_length_eq_zero h2
    subst e1
    subst e2
    simp [proofFold] at he
    exact ⟨he, rfl⟩
  | cons d ds ih =>
    intro cur1 cur2 hs1 hs2 h1 h2 he
    cases hs1 with
    | nil => simp at h1
    | cons a1 t1 =>
      cases hs2 with
      | nil => simp at h2
      | cons a2 t2 =>
        simp only [proofFold] at he
        obtain ⟨hstep, htail⟩ :=
          ih _ _ _ _ (by simpa using h1) (by simpa using h2) he
        cases d with
        | true =>
          simp only [if_pos rfl] at hstep
          have h3 := hstep
          injection h3 with h4
          injection h4 with h5 h6
          subst h5
          subst h6
          subst htail
          exact ⟨rfl, rfl⟩
        | false =>
          simp only [Bool.false_eq_true, if_neg] at hstep
          have h3 := hstep
          injection h3 with h4
          injection h4 with h5 h6
          subst h5
          subst h6
          subst htail
          exact ⟨rfl, rfl⟩

/-- Claim C2: for every non-empty list of distinct transaction ids used to
build a MerkleTree and every id in it, verify_merkle_proof accepts the proof
produced by get_merkle_proof; and replacing any single element of
proof_hashes by a different hash makes verify_merkle_proof reject. -/
theorem C2_merkle_round_trip (txs : List String) (tx : String)
    (hne : txs ≠ []) (_hnd : txs.Nodup) (hmem : tx ∈ txs) :
    ∃ p, (MerkleTree.ofTxs txs).get_merkle_proof tx = some p ∧
      MerkleTree.verify_merkle_proof p = true ∧
      ∀ (k : Nat) (hk : k < p.proof_hashes.length) (h2 : HashStr),
        h2 ≠ p.proof_hashes.get ⟨k, hk⟩ →
        MerkleTree.verify_merkle_proof
          { p with proof_hashes := p.proof_hashes.set k h2 } = false := by
  have hlne : txs.map mkLeaf ≠ [] := by
    simpa using hne
  obtain ⟨r, hr⟩ := buildFromLevel_some (txs.map mkLeaf).length (txs.map mkLeaf)
    hlne (Nat.le_succ _)
  have hfindSome : ((txs.map mkLeaf).find?
      (fun lf => lf.leafData = some tx)).isSome = true := by
    rw [List.find?_isSome]
    exact ⟨mkLeaf tx, List.mem_map_of_mem mkLeaf hmem, by simp [mkLeaf, MerkleNode.leafData]⟩
  obtain ⟨target, hfind⟩ := Option.isSome_iff_exists.mp hfindSome
  have htmem : target ∈ txs.map mkLeaf := List.mem_of_find?_eq_some hfind
  have htdata : target.leafData = some tx := by
    have := List.find?_some hfind
    simpa using this
  have htarget : target = mkLeaf tx := by
    obtain ⟨tx0, _, rfl⟩ := List.mem_map.mp htmem
    have : tx0 = tx := by
      simpa [mkLeaf, MerkleNode.leafData] using htdata
    rw [this]
  have hocc : occursIn target r :=
    buildFromLevel_contains (txs.map mkLeaf).length (txs.map mkLeaf) r target hr
      htmem target (occursIn_self target)
  have hbpSome := build_proof_path_isSome r target hocc
  obtain ⟨pr, hbp⟩ := Option.isSome_iff_exists.mp hbpSome
  obtain ⟨hs, ds⟩ := pr
  have hcons : consistentTree r := by
    apply buildFromLevel_consistent (txs.map mkLeaf).length (txs.map mkLeaf) r _ hr
    intro n hn
    obtain ⟨tx0, _, rfl⟩ := List.mem_map.mp hn
    rw [mkLeaf, consistentTree]
    trivial
  obtain ⟨hlen, hfold⟩ := build_proof_path_spec r target hs ds hcons hbp
  have hth : target.hashValue = HashStr.dsha (HashStr.raw tx) := by
    rw [htarget, mkLeaf, MerkleNode.hashValue]
  have hgood : proofFold (HashStr.dsha (HashStr.raw tx)) hs ds = r.hashValue := by
    rw [← hth]
    exact hfold
  refine ⟨{ target_hash := HashStr.raw tx, merkle_root := r.hashValue,
            proof_hashes := hs, proof_directions := ds }, ?_, ?_, ?_⟩
  · simp only [MerkleTree.get_merkle_proof, MerkleTree.ofTxs, hmem, if_true, hfind,
      hr, hbp, Option.getD]
  · simp [MerkleTree.verify_merkle_proof, hgood]
  · intro k hk h2 hne2
    rw [MerkleTree.verify_merkle_proof]
    simp only [decide_eq_false_iff_not]
    intro hcontra
    have hfold2 : proofFold (HashStr.dsha (HashStr.raw tx)) (hs.set k h2) ds =
        proofFold (HashStr.dsha (HashStr.raw tx)) hs ds := by
      rw [hgood]
      exact hcontra
    have hinj := proofFold_inj ds (HashStr.dsha (HashStr.raw tx))
      (HashStr.dsha (HashStr.raw tx)) (hs.set k h2) hs
      (by rw [List.length_set]; exact hlen) hlen hfold2
    have hks : k < (hs.set k h2).length := by
      rw [List.length_set]
      exact hk
    have hget2 : (hs.set k h2).get ⟨k, hks⟩ = h2 := by
      rw [List.get_eq_getElem]
      exact List.getElem_set_self hks
    have hget3 := List.get_of_eq hinj.2 ⟨k, hks⟩
    apply hne2
    rw [← hget2, hget3]

/-- Witness for C2 at the concrete id list ["a", "b", "c"] and id "b". -/
theorem C2_witness :
    ∃ p, (MerkleTree.ofTxs ["a", "b", "c"]).get_merkle_proof "b" = some p ∧
      MerkleTree.verify_merkle_proof p = true ∧
      ∀ (k : Nat) (hk : k < p.proof_hashes.length) (h2 : HashStr),
        h2 ≠ p.proof_hashes.get ⟨k, hk⟩ →
        MerkleTree.verify_merkle_proof
          { p with proof_hashes := p.proof_hashes.set k h2 } = false :=
  C2_merkle_round_trip ["a", "b", "c"] "b" (by decide) (by decide) (by decide)

/-- Claim C3: whenever the proof-of-work loop of Block.mine_block terminates
on a block whose stored hash is the one computed at construction (invariant 3
of the data model), the resulting hash starts with difficulty zero
characters and still equals the recomputation of the header hash. -/
theorem C3_pow_validity (C : Crypto) : ∀ (fuel difficulty : Nat) (b b2 : Block),
    b.hash = b.calculate_hash C → Block.mine_block C difficulty fuel b = some b2 →
    b2.hash.take difficulty = String.mk (List.replicate difficulty '0') ∧
    b2.hash = b2.calculate_hash C := by
  intro fuel
  induction fuel with
  | zero =>
    intro difficulty b b2 hinv hm
    rw [Block.mine_block] at hm
    by_cases hc : b.hash.take difficulty = String.mk (List.replicate difficulty '0')
    · rw [if_pos hc] at hm
      obtain rfl : b = b2 := by simpa using hm
      exact ⟨hc, hinv⟩
    · rw [if_neg hc] at hm
      simp at hm
  | succ fuel ih =>
    intro difficulty b b2 hinv hm
    rw [Block.mine_block] at hm
    by_cases hc : b.hash.take difficulty = String.mk (List.replicate difficulty '0')
    · rw [if_pos hc] at hm
      obtain rfl : b = b2 := by simpa using hm
      exact ⟨hc, hinv⟩
    · rw [if_neg hc] at hm
      exact ih difficulty _ b2 (by simp [Block.calculate_hash]) hm

/-- Witness for C3: a concrete block mined at difficulty 1 with a concrete
collaborator instantiation; mining succeeds after one nonce increment. -/
theorem C3_witness :
    ∃ b2, Block.mine_block stepCrypto 1 2 blockM = some b2 ∧
      b2.hash.take 1 = String.mk (List.replicate 1 '0') ∧
      b2.hash = b2.calculate_hash stepCrypto := by
  have hm : Block.mine_block stepCrypto 1 2 blockM =
      some { blockM with nonce := 1, hash := "0fff" } := by decide
  have h := C3_pow_validity stepCrypto 2 1 blockM _ rfl hm
  exact ⟨_, hm, h.1, h.2⟩

/-- Claim C1: once a transaction is accepted into the mempool, any further
transaction referencing one of the same UTXO ids in an input is rejected by
add_transaction. -/
theorem C1_no_double_spend (C : Crypto) (bc bc2 : Blockchain) (t1 t2 : Transaction)
    (i1 i2 : TransactionInput) (h1 : i1 ∈ t1.inputs) (h2 : i2 ∈ t2.inputs)
    (hid : i1.get_utxo_id = i2.get_utxo_id)
    (hadd : Blockchain.add_transaction C bc t1 = (true, bc2)) :
    (Blockchain.add_transaction C bc2 t2).1 = false := by
  have hbc2 : bc2 = { bc with pending_transactions := bc.pending_transactions ++ [t1] } := by
    rw [Blockchain.add_transaction] at hadd
    by_cases hv1 : t1.is_valid C (some bc.utxo_set) = false
    · rw [if_pos hv1] at hadd
      simp at hadd
    · rw [if_neg hv1] at hadd
      by_cases hg : t1.inputs ≠ [] ∧ bc.validate_transaction_utxos t1 = false
      · rw [if_pos hg] at hadd
        simp at hadd
      · rw [if_neg hg] at hadd
        exact (congrArg Prod.snd hadd).symm
  rw [Blockchain.add_transaction]
  by_cases hv2 : t2.is_valid C (some bc2.utxo_set) = false
  · rw [if_pos hv2]
  · rw [if_neg hv2]
    have hmemPend : i2.get_utxo_id ∈ bc2.pending_used_utxo_ids := by
      rw [Blockchain.pending_used_utxo_ids, List.mem_flatten]
      refine ⟨t1.inputs.map TransactionInput.get_utxo_id, ?_, ?_⟩
      · apply List.mem_map_of_mem
        rw [hbc2]
        simp
      · rw [← hid]
        exact List.mem_map_of_mem _ h1
    have hval : bc2.validate_transaction_utxos t2 = false := by
      rw [Blockchain.validate_transaction_utxos, Bool.and_eq_false_iff]
      left
      rw [List.all_eq_false]
      refine ⟨i2, h2, ?_⟩
      cases hu : bc2.utxo_set.get_utxo i2.get_utxo_id with
      | none => simp [hu]
      | some u => simp [hu, hmemPend]
    have hguard : t2.inputs ≠ [] ∧ bc2.validate_transaction_utxos t2 = false :=
      ⟨List.ne_nil_of_mem h2, hval⟩
    rw [if_pos hguard]

/-- Witness for C1: a concrete one-UTXO ledger where a first spend is
accepted and a second spend of the same UTXO id is rejected. -/
theorem C1_witness :
    (Blockchain.add_transaction testCrypto
      (Blockchain.add_transaction testCrypto bcA txSpend1).2 txSpend2).1 = false := by
  have hadd : Blockchain.add_transaction testCrypto bcA txSpend1 =
      (true, { bcA with pending_transactions := bcA.pending_transactions ++ [txSpend1] }) := by
    decide
  have h := C1_no_double_spend testCrypto bcA _ txSpend1 txSpend2
    { transaction_id := "g", output_index := 0, signature := "s", public_key := "pk" }
    { transaction_id := "g", output_index := 0, signature := "s2", public_key := "pk2" }
    (by decide) (by decide) (by decide) hadd
  rw [hadd]
  exact h

/-- Claim C6: a rejected add_transaction leaves the chain, the UTXO set and
the mempool exactly as they were (rejection is atomic, nothing is applied). -/
theorem C6_reject_unchanged (C : Crypto) (bc : Blockchain) (t : Transaction)
    (bc2 : Blockchain) (h : Blockchain.add_transaction C bc t = (false, bc2)) :
    bc2.chain = bc.chain ∧ bc2.utxo_set = bc.utxo_set ∧
    bc2.pending_transactions = bc.pending_transactions := by
  have hbc : bc2 = bc := by
    rw [Blockchain.add_transaction] at h
    by_cases hv : t.is_valid C (some bc.utxo_set) = false
    · rw [if_pos hv] at h
      exact (congrArg Prod.snd h).symm
    · rw [if_neg hv] at h
      by_cases hg : t.inputs ≠ [] ∧ bc.validate_transaction_utxos t = false
      · rw [if_pos hg] at h
        exact (congrArg Prod.snd h).symm
      · rw [if_neg hg] at h
        have := congrArg Prod.fst h
        simp at this
  rw [hbc]
  exact ⟨rfl, rfl, rfl⟩

/-- Witness for C6: a transaction without outputs is rejected and the
concrete ledger is unchanged. -/
theorem C6_witness :
    Blockchain.add_transaction testCrypto bcA txBad = (false, bcA) ∧
    bcA.chain = bcA.chain ∧ bcA.utxo_set = bcA.utxo_set ∧
    bcA.pending_transactions = bcA.pending_transactions := by
  have h : Blockchain.add_transaction testCrypto bcA txBad = (false, bcA) := by decide
  exact ⟨h, C6_reject_unchanged testCrypto bcA txBad bcA h⟩

/-- Claim C9: a successful add_transaction leaves the UTXO set, hence every
balance, and the chain unchanged; the mempool grows by exactly the one
transaction. -/
theorem C9_accept_frame (C : Crypto) (bc : Blockchain) (t : Transaction)
    (bc2 : Blockchain) (h : Blockchain.add_transaction C bc t = (true, bc2)) :
    bc2.utxo_set = bc.utxo_set ∧
    (∀ address : String, bc2.get_balance address = bc.get_balance address) ∧
    bc2.pending_transactions = bc.pending_transactions ++ [t] ∧
    bc2.chain = bc.chain := by
  have hbc : bc2 = { bc with pending_transactions := bc.pending_transactions ++ [t] } := by
    rw [Blockchain.add_transaction] at h
    by_cases hv : t.is_valid C (some bc.utxo_set) = false
    · rw [if_pos hv] at h
      have := congrArg Prod.fst h
      simp at this
    · rw [if_neg hv] at h
      by_cases hg : t.inputs ≠ [] ∧ bc.validate_transaction_utxos t = false
      · rw [if_pos hg] at h
        have := congrArg Prod.fst h
        simp at this
      · rw [if_neg hg] at h
        exact (congrArg Prod.snd h).symm
  subst hbc
  exact ⟨rfl, fun _ => rfl, rfl, rfl⟩

/-- Witness for C9: the accepted spend of the concrete one-UTXO ledger
reserves but does not consume the UTXO, so the balance query is unchanged. -/
theorem C9_witness :
    Blockchain.add_transaction testCrypto bcA txSpend1 =
      (true, { bcA with pending_transactions := bcA.pending_transactions ++ [txSpend1] }) ∧
    ({ bcA with pending_transactions :=
        bcA.pending_transactions ++ [txSpend1] } : Blockchain).utxo_set = bcA.utxo_set ∧
    (∀ address : String,
      ({ bcA with pending_transactions :=
          bcA.pending_transactions ++ [txSpend1] } : Blockchain).get_balance address =
        bcA.get_balance address) := by
  have h : Blockchain.add_transaction testCrypto bcA txSpend1 =
      (true, { bcA with pending_transactions := bcA.pending_transactions ++ [txSpend1] }) := by
    decide
  have h2 := C9_accept_frame testCrypto bcA txSpend1 _ h
  exact ⟨h, h2.1, h2.2.1⟩

/-- The accumulator loop of get_total_input_value equals the sum of the
looked-up amounts, with a missing UTXO contributing zero. -/
theorem foldl_amount_eq_sum (s : UTXOSet) : ∀ (l : List TransactionInput) (acc : Rat),
    l.foldl (fun acc2 i =>
      match s.get_utxo i.get_utxo_id with
      | some u => acc2 + u.amount
      | none => acc2) acc =
    acc + (l.map (fun i =>
      match s.get_utxo i.get_utxo_id with
      | some u => u.amount
      | none => 0)).sum := by
  intro l
  induction l with
  | nil => intro acc; simp
  | cons i rest ih =>
    intro acc
    cases hu : s.get_utxo i.get_utxo_id with
    | none =>
      simp only [List.foldl_cons, List.map_cons, List.sum_cons, hu]
      rw [ih acc]
      ring
    | some u =>
      simp only [List.foldl_cons, List.map_cons, List.sum_cons, hu]
      rw [ih (acc + u.amount)]
      ring

/-- Claim C7: calculate_fee returns 0 for a coinbase transaction, and
otherwise the input total (amounts of the UTXOs present in the set that the
inputs reference) minus the output total, floored at zero. -/
theorem C7_calculate_fee (t : Transaction) (s : UTXOSet) :
    (t.is_coinbase = true → t.calculate_fee s = 0) ∧
    (t.is_coinbase = false →
      t.calculate_fee s =
        max 0 ((t.inputs.map (fun i =>
            match s.get_utxo i.get_utxo_id with
            | some u => u.amount
            | none => 0)).sum -
          (t.outputs.map (fun o => o.amount)).sum)) := by
  constructor
  · intro hc
    simp [Transaction.calculate_fee, hc]
  · intro hc
    simp only [Transaction.calculate_fee, Transaction.get_total_input_value,
      Transaction.get_total_output_value, hc, Bool.false_eq_true, if_false]
    rw [foldl_amount_eq_sum s t.inputs 0, zero_add]

/-- Witness for C7: the concrete coinbase has fee 0; the concrete spend of a
50-coin UTXO into a 20-coin output has fee 30. -/
theorem C7_witness :
    (txCb.is_coinbase = true ∧ txCb.calculate_fee setK = 0) ∧
    (txSpend1.is_coinbase = false ∧ txSpend1.calculate_fee bcA.utxo_set =
      max 0 ((txSpend1.inputs.map (fun i =>
          match bcA.utxo_set.get_utxo i.get_utxo_id with
          | some u => u.amount
          | none => 0)).sum -
        (txSpend1.outputs.map (fun o => o.amount)).sum)) := by
  constructor
  · exact ⟨by decide, (C7_calculate_fee txCb setK).1 (by decide)⟩
  · exact ⟨by decide, (C7_calculate_fee txSpend1 bcA.utxo_set).2 (by decide)⟩

/-- Claim C5: off adjustment boundaries calculate_next_difficulty returns the
current (last recorded, else initial) difficulty unchanged; on a boundary
with both cycle-end headers found it returns the end difficulty scaled by the
clamped quotient of target timespan over the actual timespan between the
headers at heights h - ADJUSTMENT_INTERVAL and h - 1 (the quotient needs a
nonzero actual timespan; equal timestamps raise ZeroDivisionError). -/
theorem C5_difficulty_adjustment (da : DifficultyAdjustment) (h : Nat) :
    (¬ (0 < h ∧ h % ADJUSTMENT_INTERVAL = 0) →
      da.calculate_next_difficulty h = some da.current_recorded_difficulty) ∧
    (∀ sb eb : BlockHeader, 0 < h → h % ADJUSTMENT_INTERVAL = 0 →
      da.find_block_by_height (h - ADJUSTMENT_INTERVAL) = some sb →
      da.find_block_by_height (h - 1) = some eb →
      eb.timestamp - sb.timestamp ≠ 0 →
      da.calculate_next_difficulty h =
        some (eb.difficulty *
          clampFactor (TARGET_TIMESPAN / (eb.timestamp - sb.timestamp)))) := by
  constructor
  · intro hnb
    rw [DifficultyAdjustment.calculate_next_difficulty, if_pos]
    simpa [should_adjust_difficulty] using hnb
  · intro sb eb h0 hmod hsb heb hts
    rw [DifficultyAdjustment.calculate_next_difficulty,
      if_neg (by simp [should_adjust_difficulty]; exact ⟨h0, hmod⟩)]
    simp only [hsb, heb]
    rw [if_neg hts]

/-- Witness for C5: a concrete two-header history; height 5 is off-boundary
and returns the last difficulty, height 2016 is a boundary whose actual
timespan is exactly the target, so the clamped quotient is 1. -/
theorem C5_witness :
    DifficultyAdjustment.calculate_next_difficulty daFix 5 =
      some daFix.current_recorded_difficulty ∧
    DifficultyAdjustment.calculate_next_difficulty daFix 2016 =
      some ((headerAt 2015 1209600 2).difficulty *
        clampFactor (TARGET_TIMESPAN /
          ((headerAt 2015 1209600 2).timestamp - (headerAt 0 0 2).timestamp))) := by
  constructor
  · exact (C5_difficulty_adjustment daFix 5).1 (by decide)
  · exact (C5_difficulty_adjustment daFix 2016).2 (headerAt 0 0 2)
      (headerAt 2015 1209600 2) (by decide) (by decide) (by decide) (by decide)
      (by decide)

/-- Claim C8 (code bug): Block construction on a transaction record that
lacks transaction_id is specified to fall back to a content hash, but the
fallback branch of Block._calculate_merkle_root evaluates hashlib.sha256
while the blockchain module never imports hashlib, so construction raises
NameError (modelled as none) instead of succeeding. -/
theorem C8_missing_id_raises :
    Block.make testCrypto 0 [recNoId] "0" "ts" 0 = none := by
  rfl

/-- Claim C10 (counterexample to the literal claim): for a transaction whose
input references the UTXO id that its own first output recreates, the
referenced id is present, not absent, after update_from_transaction. -/
theorem C10_counterexample :
    txSelf.inputs.map TransactionInput.get_utxo_id = [utxoKey "x" 0] ∧
    dictLookup (UTXOSet.update_from_transaction ⟨[]⟩ txSelf).utxos (utxoKey "x" 0) =
      some { transaction_id := "x", output_index := 0, amount := 5,
             recipient_address := "a", is_spent := false } := by
  constructor
  · rfl
  · rfl

/-- Lookup after the input-removal loop of update_from_transaction: removed
ids read none, other keys are untouched. -/
theorem removeFold_lookup (k : String) : ∀ (l : List TransactionInput) (s : UTXOSet),
    dictLookup (l.foldl (fun acc i => acc.remove_utxo i.get_utxo_id) s).utxos k =
      if k ∈ l.map TransactionInput.get_utxo_id then none else dictLookup s.utxos k := by
  intro l
  induction l with
  | nil => intro s; simp
  | cons i rest ih =>
    intro s
    rw [List.foldl_cons, ih (s.remove_utxo i.get_utxo_id)]
    by_cases hk : k = i.get_utxo_id
    · have hcons : k ∈ (i :: rest).map TransactionInput.get_utxo_id := by simp [hk]
      rw [if_pos hcons]
      by_cases hmem : k ∈ rest.map TransactionInput.get_utxo_id
      · rw [if_pos hmem]
      · rw [if_neg hmem, hk, UTXOSet.remove_utxo]
        exact dictLookup_remove_self _ _
    · have hiff : k ∈ (i :: rest).map TransactionInput.get_utxo_id ↔
          k ∈ rest.map TransactionInput.get_utxo_id := by
        simp [hk]
      by_cases hmem : k ∈ rest.map TransactionInput.get_utxo_id
      · rw [if_pos hmem, if_pos (hiff.mpr hmem)]
      · rw [if_neg hmem, if_neg (fun hx => hmem (hiff.mp hx)), UTXOSet.remove_utxo]
        exact dictLookup_remove_ne _ _ _ hk

/-- Lookup after the output-insertion loop at a key none of the inserted
UTXOs uses: untouched. -/
theorem addOutputsFrom_lookup_other (tid : String) (k : String) :
    ∀ (outs : List TransactionOutput) (j : Nat) (s : UTXOSet),
    (∀ m, m < outs.length → k ≠ utxoKey tid (j + m)) →
    dictLookup (addOutputsFrom tid j outs s).utxos k = dictLookup s.utxos k := by
  intro outs
  induction outs with
  | nil => intro j s _; rfl
  | cons o rest ih =>
    intro j s hne
    rw [addOutputsFrom]
    rw [ih (j + 1) _ (fun m hm => by
      have := hne (m + 1) (by simpa using Nat.succ_lt_succ hm)
      simpa [Nat.add_assoc, Nat.add_comm 1 m] using this)]
    have h0 := hne 0 (by simp)
    simp only [Nat.add_zero] at h0
    exact dictLookup_insert_ne _ _ _ _ h0

/-- Lookup after the output-insertion loop at the key of inserted output k:
the freshly created unspent UTXO carrying that output's amount and
recipient. -/
theorem addOutputsFrom_lookup_at (tid : String) :
    ∀ (outs : List TransactionOutput) (j : Nat) (s : UTXOSet) (k : Nat)
    (hk : k < outs.length),
    dictLookup (addOutputsFrom tid j outs s).utxos (utxoKey tid (j + k)) =
      some { transaction_id := tid, output_index := j + k,
             amount := (outs.get ⟨k, hk⟩).amount,
             recipient_address := (outs.get ⟨k, hk⟩).recipient_address,
             is_spent := false } := by
  intro outs
  induction outs with
  | nil => intro j s k hk; simp at hk
  | cons o rest ih =>
    intro j s k hk
    cases k with
    | zero =>
      rw [addOutputsFrom]
      rw [addOutputsFrom_lookup_other tid _ rest (j + 1) _ (fun m hm => by
        intro hcontra
        have := utxoKey_index_injective tid _ _ hcontra
        omega)]
      simp only [Nat.add_zero]
      exact dictLookup_insert_self _ _ _
    | succ k2 =>
      rw [addOutputsFrom]
      have hj : j + (k2 + 1) = (j + 1) + k2 := by omega
      rw [hj]
      rw [ih (j + 1) _ k2 (by simpa using Nat.lt_of_succ_lt_succ hk)]
      simp [hj]

/-- Claim C10 (amended): update_from_transaction never fails; afterwards
every UTXO id referenced by an input is absent unless it coincides with a
key (t.transaction_id, k) recreated by output k of the same transaction, and
for every output index k the set holds the new unspent UTXO with that
output's amount and recipient. -/
theorem C10_update_from_transaction (s : UTXOSet) (t : Transaction) :
    (∀ i ∈ t.inputs,
      (∀ k, k < t.outputs.length → i.get_utxo_id ≠ utxoKey t.transaction_id k) →
      dictLookup (s.update_from_transaction t).utxos i.get_utxo_id = none) ∧
    (∀ (k : Nat) (hk : k < t.outputs.length),
      dictLookup (s.update_from_transaction t).utxos (utxoKey t.transaction_id k) =
        some { transaction_id := t.transaction_id, output_index := k,
               amount := (t.outputs.get ⟨k, hk⟩).amount,
               recipient_address := (t.outputs.get ⟨k, hk⟩).recipient_address,
               is_spent := false }) := by
  constructor
  · intro i hi hne
    rw [UTXOSet.update_from_transaction]
    rw [addOutputsFrom_lookup_other t.transaction_id _ t.outputs 0 _ (fun m hm => by
      simpa using hne m hm)]
    rw [removeFold_lookup]
    simp [List.mem_map_of_mem TransactionInput.get_utxo_id hi]
  · intro k hk
    rw [UTXOSet.update_from_transaction]
    have h := addOutputsFrom_lookup_at t.transaction_id t.outputs 0
      (t.inputs.foldl (fun acc i => acc.remove_utxo i.get_utxo_id) s) k hk
    simpa using h

/-- Witness for the amended C10: spending the concrete UTXO (k, 0) with one
output to bob removes the spent id and creates the unspent output UTXO. -/
theorem C10_witness :
    dictLookup (UTXOSet.update_from_transaction setK txK).utxos (utxoKey "k" 0) = none ∧
    dictLookup (UTXOSet.update_from_transaction setK txK).utxos (utxoKey "y" 0) =
      some { transaction_id := "y", output_index := 0, amount := 3,
             recipient_address := "bob", is_spent := false } := by
  constructor
  · exact (C10_update_from_transaction setK txK).1
      { transaction_id := "k", output_index := 0, signature := "", public_key := "" }
      (by decide) (by decide)
  · exact (C10_update_from_transaction setK txK).2 0 (by decide)

/-! Lemmas for mine_pending_transactions. -/

/-- Mining only changes nonce and hash; the header payload and transaction
list survive unchanged. -/
theorem mine_block_preserves (C : Crypto) (difficulty : Nat) : ∀ (fuel : Nat)
    (b b2 : Block), Block.mine_block C difficulty fuel b = some b2 →
    b2.index = b.index ∧ b2.transactions = b.transactions ∧
    b2.previous_hash = b.previous_hash ∧ b2.timestamp = b.timestamp ∧
    b2.merkle_root = b.merkle_root := by
  intro fuel
  induction fuel with
  | zero =>
    intro b b2 hm
    rw [Block.mine_block] at hm
    by_cases hc : b.hash.take difficulty = String.mk (List.replicate difficulty '0')
    · rw [if_pos hc] at hm
      obtain rfl : b = b2 := by simpa using hm
      exact ⟨rfl, rfl, rfl, rfl, rfl⟩
    · rw [if_neg hc] at hm
      simp at hm
  | succ fuel ih =>
    intro b b2 hm
    rw [Block.mine_block] at hm
    by_cases hc : b.hash.take difficulty = String.mk (List.replicate difficulty '0')
    · rw [if_pos hc] at hm
      obtain rfl : b = b2 := by simpa using hm
      exact ⟨rfl, rfl, rfl, rfl, rfl⟩
    · rw [if_neg hc] at hm
      exact ih { { b with nonce := b.nonce + 1 } with
        hash := Block.calculate_hash C { b with nonce := b.nonce + 1 } } b2 hm

/-- The fields Block.__init__ stores verbatim. -/
theorem Block.make_fields (C : Crypto) (index : Nat) (txd : List TxRecord)
    (ph ts : String) (n : Nat) (b : Block)
    (h : Block.make C index txd ph ts n = some b) :
    b.index = index ∧ b.transactions = txd ∧ b.previous_hash = ph ∧
    b.timestamp = ts := by
  rw [Block.make] at h
  cases hmr : blockMerkleRoot txd with
  | none =>
    rw [hmr] at h
    simp at h
  | some pr =>
    obtain ⟨tree, mr⟩ := pr
    rw [hmr] at h
    simp only [Option.some.injEq] at h
    subst h
    exact ⟨rfl, rfl, rfl, rfl⟩

/-- The transaction-index update leaves keys alone that no record of the
block writes. -/
theorem updateIndexFrom_lookup_other (bi : Nat) (k : String) :
    ∀ (rs : List TxRecord) (p : Nat) (idx : List (String × (Nat × Nat))),
    (∀ r ∈ rs, r.transaction_id ≠ some k) →
    dictLookup (updateIndexFrom bi p rs idx) k = dictLookup idx k := by
  intro rs
  induction rs with
  | nil => intro p idx _; rfl
  | cons r rest ih =>
    intro p idx hne
    rw [updateIndexFrom]
    cases hr : r.transaction_id with
    | none =>
      simp only [hr]
      exact ih (p + 1) idx (fun r2 h2 => hne r2 (List.mem_cons_of_mem r h2))
    | some tid =>
      simp only [hr]
      by_cases ht : tid = ""
      · rw [if_pos ht]
        exact ih (p + 1) idx (fun r2 h2 => hne r2 (List.mem_cons_of_mem r h2))
      · rw [if_neg ht]
        rw [ih (p + 1) _ (fun r2 h2 => hne r2 (List.mem_cons_of_mem r h2))]
        apply dictLookup_insert_ne
        intro hcontra
        apply hne r (List.mem_cons_self r rest)
        rw [hr, hcontra]

/-- After indexing a block, a nonempty transaction id written at position q
and not rewritten by any later record resolves to (block index, q). -/
theorem updateIndexFrom_lookup_at (bi : Nat) :
    ∀ (rs : List TxRecord) (p : Nat) (idx : List (String × (Nat × Nat)))
    (q : Nat) (hq : q < rs.length) (tid : String),
    (rs.get ⟨q, hq⟩).transaction_id = some tid → tid ≠ "" →
    (∀ r2 ∈ rs.drop (q + 1), r2.transaction_id ≠ some tid) →
    dictLookup (updateIndexFrom bi p rs idx) tid = some (bi, p + q) := by
  intro rs
  induction rs with
  | nil => intro p idx q hq; simp at hq
  | cons r rest ih =>
    intro p idx q hq tid hget hne hafter
    cases q with
    | zero =>
      have hr : r.transaction_id = some tid := hget
      rw [updateIndexFrom]
      simp only [hr, if_neg hne]
      rw [updateIndexFrom_lookup_other bi tid rest (p + 1) _ (by simpa using hafter)]
      rw [dictLookup_insert_self]
      simp
    | succ q2 =>
      rw [updateIndexFrom]
      have harith : p + (q2 + 1) = (p + 1) + q2 := by omega
      rw [harith]
      cases hr : r.transaction_id with
      | none =>
        simp only [hr]
        exact ih (p + 1) idx q2 (Nat.lt_of_succ_lt_succ hq) tid hget hne
          (by simpa using hafter)
      | some tid2 =>
        simp only [hr]
        by_cases ht : tid2 = ""
        · rw [if_pos ht]
          exact ih (p + 1) idx q2 (Nat.lt_of_succ_lt_succ hq) tid hget hne
            (by simpa using hafter)
        · rw [if_neg ht]
          exact ih (p + 1) _ q2 (Nat.lt_of_succ_lt_succ hq) tid hget hne
            (by simpa using hafter)

/-- In a list with pairwise distinct images, anything after position q maps
differently from the element at q. -/
theorem nodup_drop_ne {α β : Type} (f : α → β) : ∀ (l : List α),
    (l.map f).Nodup → ∀ (q : Nat) (hq : q < l.length) (r2 : α),
    r2 ∈ l.drop (q + 1) → f r2 ≠ f (l.get ⟨q, hq⟩) := by
  intro l
  induction l with
  | nil => intro _ q hq; simp at hq
  | cons a rest ih =>
    intro hnd q hq r2 hmem
    rw [List.map_cons, List.nodup_cons] at hnd
    cases q with
    | zero =>
      simp only [List.drop_succ_cons, List.drop_zero] at hmem
      intro hcontra
      exact hnd.1 (hcontra ▸ List.mem_map_of_mem f hmem)
    | succ q2 =>
      simp only [List.drop_succ_cons] at hmem
      exact ih hnd.2 q2 (Nat.lt_of_succ_lt_succ hq) r2 hmem

/-- collect_tx_ids over records produced by Transaction.to_dict always
succeeds with exactly the transaction ids. -/
theorem collect_tx_ids_map_to_dict : ∀ ts : List Transaction,
    collect_tx_ids (ts.map Transaction.to_dict) =
      some (ts.map Transaction.transaction_id) := by
  intro ts
  induction ts with
  | nil => rfl
  | cons t rest ih => simp [collect_tx_ids, Transaction.to_dict, ih]

/-- Claim C4: mine_pending_transactions appends exactly one block holding
the mempool transactions followed by one coinbase paying
mining_reward + total fees to the reward address and tagged with the new
height; the UTXO set is the fold of update_from_transaction over the block's
transactions in order with the coinbase last; the mempool is cleared; and,
for ids that are nonempty and pairwise distinct, the transaction index maps
each of the block's transaction ids to (block index, position). -/
theorem C4_mine_pending (C : Crypto) (fuel : Nat) (bc : Blockchain)
    (addr ts1 ts2 : String) (b : Block) (s2 : Blockchain)
    (hm : bc.mine_pending_transactions C fuel addr ts1 ts2 = some (b, s2)) :
    ∃ cb : Transaction,
      cb = bc.reward_transaction C addr ts1 ∧
      s2.chain = bc.chain ++ [b] ∧
      b.index = bc.chain.length ∧
      b.transactions = bc.pending_transactions.map Transaction.to_dict ++
        [cb.to_dict] ∧
      cb.inputs = [] ∧
      cb.outputs = [{ amount := bc.mining_reward + bc.total_pending_fees,
                      recipient_address := addr }] ∧
      cb.block_height = some bc.chain.length ∧
      s2.utxo_set = (bc.pending_transactions ++ [cb]).foldl
        UTXOSet.update_from_transaction bc.utxo_set ∧
      s2.pending_transactions = [] ∧
      ((∀ r ∈ b.transactions, ∃ s3, r.transaction_id = some s3 ∧ s3 ≠ "") →
       (b.transactions.map TxRecord.transaction_id).Nodup →
       ∀ (p : Nat) (hp : p < b.transactions.length) (tid : String),
         (b.transactions.get ⟨p, hp⟩).transaction_id = some tid →
         dictLookup s2.transaction_index tid = some (b.index, p)) := by
  rw [Blockchain.mine_pending_transactions] at hm
  split at hm
  next => simp at hm
  next latest hlat =>
    split at hm
    next => simp at hm
    next blk hmk =>
      split at hm
      next => simp at hm
      next mined hmine =>
        simp only [Option.some.injEq, Prod.mk.injEq] at hm
        obtain ⟨hb, hs⟩ := hm
        subst hb
        subst hs
        have hpres := mine_block_preserves C bc.difficulty fuel blk mined hmine
        have hfields := Block.make_fields C bc.chain.length _ latest.hash ts2 0 blk hmk
        refine ⟨bc.reward_transaction C addr ts1, rfl, rfl,
          hpres.1.trans hfields.1, (hpres.2.1).trans hfields.2.1, rfl, rfl, rfl,
          rfl, rfl, ?_⟩
        intro hids hnd p hp tid htid
        have hmem := List.get_mem mined.transactions p hp
        obtain ⟨s3, hsome, hne3⟩ := hids _ hmem
        have hstid : s3 = tid := by
          rw [hsome] at htid
          simpa using htid
        subst hstid
        have hafter : ∀ r2 ∈ mined.transactions.drop (p + 1),
            r2.transaction_id ≠ some s3 := by
          intro r2 hr2 hcontra
          exact nodup_drop_ne TxRecord.transaction_id mined.transactions hnd p hp r2 hr2
            (hcontra.trans htid.symm)
        have hlook := updateIndexFrom_lookup_at mined.index mined.transactions 0
          bc.transaction_index p hp s3 htid hne3 hafter
        show dictLookup (update_transaction_index bc.transaction_index mined) s3 =
          some (mined.index, p)
        rw [update_transaction_index]
        simpa using hlook

/-- Witness for C4 on a concrete one-block ledger with an empty mempool:
mining appends exactly one block holding the single coinbase record, clears
the mempool, and adds the coinbase output UTXO. -/
theorem C4_witness :
    ∃ (b : Block) (s2 : Blockchain),
      Blockchain.mine_pending_transactions testCrypto 0 bc0 "m" "t1" "t2" =
        some (b, s2) ∧
      s2.chain = bc0.chain ++ [b] ∧
      s2.pending_transactions = [] ∧
      b.index = bc0.chain.length := by
  have hm : Blockchain.mine_pending_transactions testCrypto 0 bc0 "m" "t1" "t2" =
      some
        (Block.mk 1
          [TxRecord.mk (some "Hsig") [] [TransactionOutput.mk 50 "m"] "t1" (some 1)]
          "gh" "t2" 0
          (some (MerkleTree.mk ["Hsig"]
            [MerkleNode.leaf (HashStr.dsha (HashStr.raw "Hsig")) "Hsig"]
            (some (MerkleNode.leaf (HashStr.dsha (HashStr.raw "Hsig")) "Hsig"))))
          (HashStr.dsha (HashStr.raw "Hsig"))
          (String.mk (List.replicate 64 '0')),
         Blockchain.mk 0 [] 50
          (UTXOSet.mk [("Hsig:0", UTXO.mk "Hsig" 0 50 "m" false)])
          [("Hsig", (1, 0))]
          [blockG,
           Block.mk 1
            [TxRecord.mk (some "Hsig") [] [TransactionOutput.mk 50 "m"] "t1" (some 1)]
            "gh" "t2" 0
            (some (MerkleTree.mk ["Hsig"]
              [MerkleNode.leaf (HashStr.dsha (HashStr.raw "Hsig")) "Hsig"]
              (some (MerkleNode.leaf (HashStr.dsha (HashStr.raw "Hsig")) "Hsig"))))
            (HashStr.dsha (HashStr.raw "Hsig"))
            (String.mk (List.replicate 64 '0'))]) := by
    decide
  obtain ⟨cb, hcb, hchain, hidx, htxs, hin, hout, hh, hutxo, hpend, hind⟩ :=
    C4_mine_pending testCrypto 0 bc0 "m" "t1" "t2" _ _ hm
  exact ⟨_, _, hm, hchain, hpend, hidx⟩
